import Mathlib

/-!
# Verification of the `ConstraintLattice` propagation solver

This file is a shallow embedding of `src/constraint_lattice_core.py` (class
`ConstraintLattice`): a constraint-propagation solver over a mapping of named
nodes, with Tarjan SCC decomposition of the relation graph, a linearized
Step-A exact solve and a damped Step-B iterative relaxation.

Modelling conventions:
* Python numbers become exact rationals (`ℚ`); `None` (a registered but unset
  node) is `Val.none`; every other Python value is opaque, carried as a
  `String` tag and compared only by equality.
* The node dictionary is an association list with Python-dict semantics:
  updating a present key rewrites it in place, a new key is appended.
* Python `set`s of small ints are modelled as ascending sorted lists
  (CPython iterates small-int sets in ascending order); `dict` keys are kept
  in insertion order.
* A Python exception is modelled by an `Option Err` component that travels
  with the (mutated-in-place) node mapping, since the caller keeps the
  mutated mapping even when `propagate` raises.
* A relation's callable is modelled as a total function
  `List Val → List Val`; the Python-side normalisation of a non-tuple result
  to a 1-tuple is absorbed into this type.
-/

attribute [local semireducible] Rat.add Rat.mul Rat.inv Rat.sub Rat.ofScientific

deriving instance DecidableEq for Except

namespace CL

/-- A node value: a number, Python `None`, or an opaque (non-numeric) value. -/
inductive Val where
  | num  (q : ℚ)
  | none
  | opaq (s : String)
deriving DecidableEq, Repr

/-- The node dictionary `self.nodes` (insertion-ordered association list). -/
abbrev NodeMap := List (String × Val)

/-- Python `d[k] = v` on a dict: overwrite in place if present, else append. -/
def setVal : NodeMap → String → Val → NodeMap
  | [], k, v => [(k, v)]
  | (k', v') :: rest, k, v =>
    if k' = k then (k', v) :: rest else (k', v') :: setVal rest k v

/-- Python `self.nodes.get(k, default)`. -/
def getD (m : NodeMap) (k : String) (d : Val) : Val :=
  match List.lookup k m with
  | some v => v
  | Option.none => d

/-- Errors that the Python code can raise during `propagate`. -/
inductive Err where
  | typeErr                    -- `float()` applied to `None` or a non-number
  | missingNode (k : String)   -- `self.nodes[i]` raising `KeyError`
  | indexErr                   -- tuple index out of range
deriving DecidableEq, Repr

/-- Python `float(v)`: succeeds exactly on numbers. -/
def toFloat : Val → Except Err ℚ
  | .num q => .ok q
  | _ => .error .typeErr

/-- A registered constraint: `{"func": ..., "inputs": [...], "outputs": [...]}`. -/
structure Constraint where
  func : List Val → List Val
  inputs : List String
  outputs : List String

/-- Insert into an ascending duplicate-free list of naturals (a Python
`set` of small ints, which CPython iterates in ascending order). -/
def insertNat (n : Nat) : List Nat → List Nat
  | [] => [n]
  | m :: rest =>
    if n < m then n :: m :: rest
    else if n = m then m :: rest
    else m :: insertNat n rest

/-- Python `d[k].add(n)` on a `defaultdict(set)` keyed by strings. -/
def addEdgeS (k : String) (n : Nat) : List (String × List Nat) → List (String × List Nat)
  | [] => [(k, [n])]
  | (k', s) :: rest =>
    if k' = k then (k', insertNat n s) :: rest else (k', s) :: addEdgeS k n rest

/-- Python `d[k].add(n)` on a `defaultdict(set)` keyed by ints. -/
def addEdgeN (k : Nat) (n : Nat) : List (Nat × List Nat) → List (Nat × List Nat)
  | [] => [(k, [n])]
  | (k', s) :: rest =>
    if k' = k then (k', insertNat n s) :: rest else (k', s) :: addEdgeN k n rest

/-- The map `dep_graph`: node name → set of constraint indices using it as an input. -/
def depGraph (cons : List Constraint) : List (String × List Nat) :=
  (cons.enum).foldl
    (fun g p => p.2.inputs.foldl (fun g inp => addEdgeS inp p.1 g) g) []

/-- Python `dep_graph.get(k, set())`. -/
def depGet (g : List (String × List Nat)) (k : String) : List Nat :=
  match List.lookup k g with
  | some s => s
  | Option.none => []

/-- The relation graph `constraint_graph`: edge `i → j` iff an output of constraint `i` is an
input of constraint `j`. Only constraints that acquire at least one outgoing
edge become keys (mirroring the `defaultdict` in the source). -/
def constraintGraph (cons : List Constraint) : List (Nat × List Nat) :=
  let dg := depGraph cons
  (cons.enum).foldl
    (fun g p =>
      p.2.outputs.foldl
        (fun g out => (depGet dg out).foldl (fun g dep => addEdgeN p.1 dep g) g) g) []

/-- Python `graph.get(node, set())`. -/
def nbrs (g : List (Nat × List Nat)) (n : Nat) : List Nat :=
  match List.lookup n g with
  | some s => s
  | Option.none => []

/-! ## Tarjan's strongly connected components (`_tarjan_scc`) -/

/-- The mutable state threaded through `strongconnect`. -/
structure TarjanSt where
  index : Nat
  stack : List Nat
  indices : List (Nat × Nat)
  lowlinks : List (Nat × Nat)
  onStack : List (Nat × Bool)
  sccs : List (List Nat)
deriving Repr

/-- Assign into an association list keyed by `Nat` (overwrite or append). -/
def assocSet (m : List (Nat × Nat)) (k v : Nat) : List (Nat × Nat) :=
  match m with
  | [] => [(k, v)]
  | (k', v') :: rest => if k' = k then (k, v) :: rest else (k', v') :: assocSet rest k v

/-- Assign into an association list of booleans keyed by `Nat`. -/
def assocSetB (m : List (Nat × Bool)) (k : Nat) (v : Bool) : List (Nat × Bool) :=
  match m with
  | [] => [(k, v)]
  | (k', v') :: rest => if k' = k then (k, v) :: rest else (k', v') :: assocSetB rest k v

/-- Read `lowlinks[n]` (defaulting to 0; in reachable code the key is present). -/
def assocGet (m : List (Nat × Nat)) (k : Nat) : Nat :=
  match List.lookup k m with
  | some v => v
  | Option.none => 0

/-- Read `on_stack.get(n)` (absent behaves as falsy). -/
def assocGetB (m : List (Nat × Bool)) (k : Nat) : Bool :=
  match List.lookup k m with
  | some v => v
  | Option.none => false

/-- The `while True` pop loop at the end of `strongconnect`: pop until the
root `node` comes off, collecting the popped vertices in pop order. -/
def popScc (node : Nat) : List Nat → List (Nat × Bool) → List Nat →
    List Nat × List (Nat × Bool) × List Nat
  | [], onS, acc => ([], onS, acc.reverse)
  | w :: rest, onS, acc =>
    let onS := assocSetB onS w false
    if w = node then (rest, onS, (w :: acc).reverse)
    else popScc node rest onS (w :: acc)

/-- One step of the `for neighbor in graph.get(node, set())` loop inside
`strongconnect`; `sc` is the recursive call at the remaining fuel. -/
def visitNbr (sc : Nat → TarjanSt → TarjanSt) (node : Nat)
    (st : TarjanSt) (nb : Nat) : TarjanSt :=
  if (List.lookup nb st.indices).isSome then
    if assocGetB st.onStack nb then
      let ll := min (assocGet st.lowlinks node) (assocGet st.indices nb)
      { st with lowlinks := assocSet st.lowlinks node ll }
    else st
  else
    let st := sc nb st
    let ll := min (assocGet st.lowlinks node) (assocGet st.lowlinks nb)
    { st with lowlinks := assocSet st.lowlinks node ll }

/-- Procedure `strongconnect(node)`, fuel-indexed: the fuel bounds recursion
depth and is chosen large enough that it is never exhausted on the graphs
`propagate` builds (each nested call targets a vertex without an index). -/
def strongconnect (g : List (Nat × List Nat)) : Nat → Nat → TarjanSt → TarjanSt
  | 0, _, st => st
  | fuel + 1, node, st =>
    let st : TarjanSt :=
      { st with
        indices := assocSet st.indices node st.index
        lowlinks := assocSet st.lowlinks node st.index
        index := st.index + 1
        stack := st.stack ++ [node]
        onStack := assocSetB st.onStack node true }
    let st := (nbrs g node).foldl (visitNbr (strongconnect g fuel) node) st
    if assocGet st.lowlinks node = assocGet st.indices node then
      let (stack', onS', scc) := popScc node st.stack.reverse st.onStack []
      { st with stack := stack'.reverse, onStack := onS', sccs := st.sccs ++ [scc] }
    else st

/-- Method `_tarjan_scc(graph)`: run `strongconnect` from every not-yet-indexed key,
in key insertion order. The fuel `g.length + 1` dominates the recursion depth
(each nested call indexes a previously unindexed key of `g`). -/
def tarjanScc (g : List (Nat × List Nat)) : List (List Nat) :=
  (g.foldl
    (fun st p =>
      if (List.lookup p.1 st.indices).isSome then st
      else strongconnect g (g.length + 1) p.1 st)
    ⟨0, [], [], [], [], []⟩).sccs

/-- The ordered SCC list `propagate` iterates: Tarjan's output, reversed. -/
def sccsOf (cons : List Constraint) : List (List Nat) :=
  (tarjanScc (constraintGraph cons)).reverse

/-! ## Step A: linearized exact solve -/

/-- Python `float(round(q, 6))`: round to 6 decimal places.  (Python rounds ties to
even; `round` here rounds ties up — the two agree off exact half-multiples of
`1e-6`, and no claim below touches a tie.) -/
def round6 (q : ℚ) : ℚ := (round (q * 1000000) : ℤ) / 1000000

/-- The solver's numeric tolerance, `1e-6`. -/
def tolerance : ℚ := 1 / 1000000

/-- Resolve `self.constraints[idx]` for each index of an SCC; `IndexError` at the
first invalid index, exactly where the Python comprehension would raise. -/
def sccConstraints (cons : List Constraint) : List Nat → Except Err (List Constraint)
  | [] => Except.ok []
  | i :: rest =>
    match cons.get? i with
    | some c =>
      match sccConstraints cons rest with
      | Except.ok cs => Except.ok (c :: cs)
      | Except.error e => Except.error e
    | Option.none => Except.error Err.indexErr

/-- Lexicographic comparison of character lists by code point. -/
def charsLt : List Char → List Char → Bool
  | [], [] => false
  | [], _ :: _ => true
  | _ :: _, [] => false
  | c :: cs, d :: ds =>
    if c.toNat < d.toNat then true
    else if d.toNat < c.toNat then false
    else charsLt cs ds

/-- Python string comparison: lexicographic by code point. -/
def strLt (a b : String) : Bool := charsLt a.data b.data

/-- Insert a string into an ascending duplicate-free list. -/
def insertStr (s : String) : List String → List String
  | [] => [s]
  | t :: rest =>
    if strLt s t then s :: t :: rest
    else if s = t then t :: rest
    else t :: insertStr s rest

/-- The list `sorted({node for c in scc for node in c.outputs if node in self.nodes})`. -/
def variablesOf (cs : List Constraint) (m : NodeMap) : List String :=
  (cs.foldl (fun acc c =>
      acc ++ c.outputs.filter (fun o => (List.lookup o m).isSome)) []).foldl
    (fun acc s => insertStr s acc) []

/-- The baselines `[float(self.nodes.get(node, 0.0)) for node in inputs]`. -/
def baselineInputs (m : NodeMap) : List String → Except Err (List ℚ)
  | [] => Except.ok []
  | n :: rest =>
    match toFloat (getD m n (.num 0)) with
    | Except.error e => Except.error e
    | Except.ok q =>
      match baselineInputs m rest with
      | Except.error e => Except.error e
      | Except.ok qs => Except.ok (q :: qs)

/-- Index `vals[j]` with `IndexError` out of range. -/
def outAt (vals : List Val) (j : Nat) : Except Err Val :=
  match vals.get? j with
  | some v => Except.ok v
  | Option.none => Except.error Err.indexErr

/-- The inner loop over a constraint's enumerated inputs: accumulate the
finite-difference coefficients into the row and adjust the constant term. -/
def perturbFold (c : Constraint) (baseline : List ℚ) (bOut : Val) (outPos : Nat)
    (vars : List String) : List (Nat × String) → List ℚ × ℚ → Except Err (List ℚ × ℚ)
  | [], rc => Except.ok rc
  | q :: rest, rc =>
    match vars.indexOf? q.2 with
    | Option.none => perturbFold c baseline bOut outPos vars rest rc
    | some wi =>
      let perturbed := baseline.set q.1 (baseline.getD q.1 0 + 1)
      let pv := c.func (perturbed.map Val.num)
      match outAt pv outPos with
      | Except.error e => Except.error e
      | Except.ok pOut =>
        match toFloat pOut with
        | Except.error e => Except.error e
        | Except.ok pq =>
          match toFloat bOut with
          | Except.error e => Except.error e
          | Except.ok bq =>
            let delta := pq - bq
            perturbFold c baseline bOut outPos vars rest
              (rc.1.set wi (rc.1.getD wi 0 - delta),
               rc.2 - delta * baseline.getD q.1 0)

/-- The loop over a constraint's enumerated outputs: one equation per output
that is a tracked variable. -/
def outRows (c : Constraint) (baseline : List ℚ) (basev : List Val)
    (vars : List String) : List (Nat × String) → List (List ℚ) × List ℚ →
    Except Err (List (List ℚ) × List ℚ)
  | [], acc => Except.ok acc
  | p :: rest, acc =>
    match vars.indexOf? p.2 with
    | Option.none => outRows c baseline basev vars rest acc
    | some vi =>
      let row0 := (List.replicate vars.length (0 : ℚ)).set vi 1
      match outAt basev p.1 with
      | Except.error e => Except.error e
      | Except.ok bOut =>
        match toFloat bOut with
        | Except.error e => Except.error e
        | Except.ok c0 =>
          match perturbFold c baseline bOut p.1 vars c.inputs.enum (row0, c0) with
          | Except.error e => Except.error e
          | Except.ok rc => outRows c baseline basev vars rest
              (acc.1 ++ [rc.1], acc.2 ++ [rc.2])

/-- Build the rows and constants of the linearized system `A·x = b` for an
SCC's constraints, exactly as the loop over `scc` inside `propagate` does. -/
def buildRowsAux (m : NodeMap) (vars : List String) :
    List Constraint → List (List ℚ) × List ℚ → Except Err (List (List ℚ) × List ℚ)
  | [], acc => Except.ok acc
  | c :: rest, acc =>
    match baselineInputs m c.inputs with
    | Except.error e => Except.error e
    | Except.ok baseline =>
      let basev := c.func (baseline.map Val.num)
      match outRows c baseline basev vars c.outputs.enum acc with
      | Except.error e => Except.error e
      | Except.ok acc' => buildRowsAux m vars rest acc'

/-- The linearized system of one SCC. -/
def buildRows (cs : List Constraint) (m : NodeMap) (vars : List String) :
    Except Err (List (List ℚ) × List ℚ) :=
  buildRowsAux m vars cs ([], [])

/-- Compute `r - f·p`, componentwise. -/
def subScale (p r : List ℚ) (f : ℚ) : List ℚ :=
  (r.zip p).map (fun ab => ab.1 - f * ab.2)

/-- Split off the first row whose leading entry is nonzero. -/
def splitPivot : List (List ℚ) → Option (List ℚ × List (List ℚ))
  | [] => Option.none
  | r :: rest =>
    if r.headD 0 ≠ 0 then some (r, rest)
    else
      match splitPivot rest with
      | some (p, others) => some (p, r :: others)
      | Option.none => Option.none

/-- Row rank of a matrix by exact Gaussian elimination over `ℚ`, the
idealization of `np.linalg.matrix_rank` used by the solver. -/
def rankAux : Nat → List (List ℚ) → Nat
  | 0, _ => 0
  | w + 1, rows =>
    match splitPivot rows with
    | Option.none => rankAux w (rows.map List.tail)
    | some (p, others) =>
      1 + rankAux w
        (others.map (fun r => (subScale p r (r.headD 0 / p.headD 1)).tail))

/-- Rank of the coefficient matrix (rows of common width). -/
def rank (rows : List (List ℚ)) : Nat :=
  rankAux (rows.headD []).length rows

/-- Dot product of two rational vectors. -/
def dot (a b : List ℚ) : ℚ := ((a.zip b).map (fun p => p.1 * p.2)).sum

/-- The columns of an `m × n` matrix stored by rows. -/
def colsOf (n : Nat) (rows : List (List ℚ)) : List (List ℚ) :=
  (List.range n).map (fun j => rows.map (fun r => r.getD j 0))

/-- Solve a square augmented system `[A | b]` by Gaussian elimination with
back substitution; `none` when a pivot is missing (singular system). -/
def gaussSolve : Nat → List (List ℚ) → Option (List ℚ)
  | 0, _ => some []
  | n + 1, rows =>
    match splitPivot rows with
    | Option.none => Option.none
    | some (p, others) =>
      let pn := p.map (· / p.headD 1)
      let reduced := others.map (fun r => (subScale pn r (r.headD 0)).tail)
      match gaussSolve n reduced with
      | Option.none => Option.none
      | some xs =>
        let cs := pn.tail.dropLast
        let d := pn.tail.getLastD 0
        some ((d - dot cs xs) :: xs)

/-- Function `np.linalg.lstsq(A, b)` idealized over `ℚ`: the least-squares solution is
the solution of the normal equations `AᵀA·x = Aᵀb` (unique when
`rank A = n`, which is the only case the solver accepts). -/
def lstsq (n : Nat) (rows : List (List ℚ)) (b : List ℚ) : Option (List ℚ) :=
  let cols := colsOf n rows
  let aug := cols.map (fun ci => cols.map (fun cj => dot ci cj) ++ [dot ci b])
  gaussSolve n aug

/-- Accepted-solution write-back of Step A: assign each variable's solved
value into the node mapping, rounded to 6 decimal places, iterating
`var_index.items()` (the sorted-variables order). -/
def stepAWrite (vars : List String) (sol : List ℚ) (m : NodeMap) : NodeMap :=
  (vars.enum).foldl (fun m p => setVal m p.2 (Val.num (round6 (sol.getD p.1 0)))) m

/-- Step A for one SCC (its constraints already resolved from their
indices): `.ok (some m')` means solved with the mapping rewritten,
`.ok none` means fall through to Step B, `.error` a raised exception. -/
def stepA (cs : List Constraint) (m : NodeMap) : Except Err (Option NodeMap) :=
  let vars := variablesOf cs m
  if vars.isEmpty then Except.ok Option.none
  else
    match buildRows cs m vars with
    | Except.error e => Except.error e
    | Except.ok rc =>
      if rc.1.isEmpty then Except.ok Option.none
      else if rank rc.1 = vars.length then
        match lstsq vars.length rc.1 rc.2 with
        | some sol => Except.ok (some (stepAWrite vars sol m))
        | Option.none => Except.ok Option.none
      else Except.ok Option.none

/-! ## Step B: damped iterative relaxation -/

/-- One output assignment of the relaxation pass (source lines 158–183):
returns the updated mapping and whether this output set the "changed" flag. -/
def applyOutput (m : NodeMap) (outId : String) (newVal : Val) : NodeMap × Bool :=
  match getD m outId Val.none with
  | Val.num old =>
    match newVal with
    | Val.num n =>
      if |old + (1 / 2 : ℚ) * (n - old) - old| ≤ tolerance then (m, false)
      else if Val.num (old + (1 / 2 : ℚ) * (n - old)) = Val.num old then (m, false)
      else (setVal m outId (Val.num (old + (1 / 2 : ℚ) * (n - old))), true)
    | _ =>
      if newVal = Val.num old then (m, false)
      else (setVal m outId newVal, true)
  | oldVal => if oldVal = newVal then (m, false) else (setVal m outId newVal, true)

/-- Evaluate `[self.nodes[i] for i in inputs]`: strict lookups, `KeyError` on a miss. -/
def lookupInputs (m : NodeMap) : List String → Except Err (List Val)
  | [] => Except.ok []
  | i :: rest =>
    match List.lookup i m with
    | some v =>
      match lookupInputs m rest with
      | Except.ok vs => Except.ok (v :: vs)
      | Except.error e => Except.error e
    | Option.none => Except.error (Err.missingNode i)

/-- Assign the enumerated outputs of one constraint in order, stopping (with
the mapping as mutated so far) at an out-of-range output index. -/
def applyOutputs (vals : List Val) :
    List (Nat × String) → NodeMap → Bool → NodeMap × Bool × Option Err
  | [], m, changed => (m, changed, Option.none)
  | jo :: rest, m, changed =>
    match vals.get? jo.1 with
    | Option.none => (m, changed, some Err.indexErr)
    | some nv =>
      let mc := applyOutput m jo.2 nv
      applyOutputs vals rest mc.1 (changed || mc.2)

/-- Evaluate one constraint of the pass and assign its outputs. -/
def applyConstraint (c : Constraint) (m : NodeMap) (changed : Bool) :
    NodeMap × Bool × Option Err :=
  match lookupInputs m c.inputs with
  | Except.error e => (m, changed, some e)
  | Except.ok ivals => applyOutputs (c.func ivals) c.outputs.enum m changed

/-- One full pass over the SCC's constraints (in SCC-list order). An
exception aborts the pass but keeps every write made before it. -/
def relaxPass : List Constraint → NodeMap → Bool → NodeMap × Bool × Option Err
  | [], m, changed => (m, changed, Option.none)
  | c :: rest, m, changed =>
    match applyConstraint c m changed with
    | (m', ch', some e) => (m', ch', some e)
    | (m', ch', Option.none) => relaxPass rest m' ch'

/-- Insert a `(key, value)` pair into a list sorted by key. -/
def insertPair (p : String × Val) : List (String × Val) → List (String × Val)
  | [] => [p]
  | q :: rest => if strLt p.1 q.1 then p :: q :: rest else q :: insertPair p rest

/-- Snapshot `tuple(sorted(self.nodes.items()))`: the order-independent snapshot used
as the repeated-state signature (keys are unique, so sorting by key). -/
def sortNodes (m : NodeMap) : List (String × Val) := m.foldr insertPair []

/-- How a relaxation loop ended. `fuelOut` is an artifact of the fuel-indexed
model and is proven unreachable from the fuel `propagate` supplies. -/
inductive Stop where
  | repeated | cap | converged | errored | fuelOut
deriving DecidableEq, Repr

/-- The iteration budget of the relaxation loop. -/
def iterationLimit : Nat := 1000

/-- The `while True` relaxation loop of one SCC (source lines 137–186). -/
def relaxLoop (cs : List Constraint) :
    Nat → List (List (String × Val)) → Nat → NodeMap → NodeMap × Option Err × Stop
  | 0, _, _, m => (m, Option.none, Stop.fuelOut)
  | fuel + 1, seen, iteration, m =>
    let key := sortNodes m
    if key ∈ seen then (m, Option.none, Stop.repeated)
    else
      let seen' := key :: seen
      let iteration' := iteration + 1
      if iteration' > iterationLimit then (m, Option.none, Stop.cap)
      else
        match relaxPass cs m false with
        | (m', _, some e) => (m', some e, Stop.errored)
        | (m', changed, Option.none) =>
          if changed then relaxLoop cs fuel seen' iteration' m'
          else (m', Option.none, Stop.converged)

/-- The rounding sweep after a relaxation loop (source lines 188–190):
round every numeric node in the entire mapping to 6 decimal places. -/
def roundMap (m : NodeMap) : NodeMap :=
  m.map (fun p =>
    match p.2 with
    | Val.num q => (p.1, Val.num (round6 q))
    | _ => p)

/-- The Step-B path of one SCC: the relaxation loop followed by the rounding
sweep; an exception skips the rounding sweep, as in the source. -/
def relaxAndRound (cs : List Constraint) (m : NodeMap) :
    NodeMap × Option Err × Bool :=
  match relaxLoop cs (iterationLimit + 2) [] 0 m with
  | (m', some e, _) => (m', some e, false)
  | (m', Option.none, _) => (roundMap m', Option.none, false)

/-- Process one SCC: Step A, then (unless solved) Step B relaxation followed
by the rounding sweep. The boolean records whether Step A solved the SCC;
an exception skips the rounding sweep, as in the source. -/
def processSCC (cons : List Constraint) (m : NodeMap) (scc : List Nat) :
    NodeMap × Option Err × Bool :=
  match sccConstraints cons scc with
  | Except.error e => (m, some e, false)
  | Except.ok cs =>
    match stepA cs m with
    | Except.error e => (m, some e, false)
    | Except.ok (some m') => (m', Option.none, true)
    | Except.ok Option.none => relaxAndRound cs m

/-- The `ConstraintLattice` instance: its `nodes` dict and `constraints` list. -/
structure Lattice where
  nodes : NodeMap
  constraints : List Constraint

/-- Fold over the ordered SCCs. The boolean ghost flag records whether every
processed SCC was solved by Step A; it never influences the mapping. -/
def propagateAux (cons : List Constraint) :
    List (List Nat) → NodeMap → Bool → NodeMap × Option Err × Bool
  | [], m, allA => (m, Option.none, allA)
  | scc :: rest, m, allA =>
    match processSCC cons m scc with
    | (m', some e, _) => (m', some e, false)
    | (m', Option.none, solved) => propagateAux cons rest m' (allA && solved)

/-- Method `ConstraintLattice.propagate`, with the ghost all-Step-A flag. -/
def propagateFull (L : Lattice) : NodeMap × Option Err × Bool :=
  propagateAux L.constraints (sccsOf L.constraints) L.nodes true

/-- Method `ConstraintLattice.propagate`: the node mapping as mutated by the call
and the exception it raised, if any. -/
def propagate (L : Lattice) : NodeMap × Option Err :=
  ((propagateFull L).1, (propagateFull L).2.1)

/-! ## Concrete instances used by the claims -/

/-- Numeric content of a value (0 for non-numbers; used only inside example
relation functions, which are in charge of their own typing). -/
def getQ (v : Val) : ℚ :=
  match v with
  | .num q => q
  | _ => 0

/-- Relation `y = 2*x + 3`, inputs `[x]`, outputs `[y]`. -/
def xyC : Constraint :=
  ⟨fun a => [.num (2 * getQ (a.headD (.num 0)) + 3)], ["x"], ["y"]⟩

/-- Lattice with `x = 0`, `y` registered unset, and the single relation
`y = 2*x + 3` (the spec's own affine Step-A example). -/
def xyL : Lattice := { nodes := [("x", .num 0), ("y", .none)], constraints := [xyC] }

/-- Relation `a = b + 1`. -/
def abC0 : Constraint := ⟨fun a => [.num (getQ (a.headD (.num 0)) + 1)], ["b"], ["a"]⟩

/-- Relation `b = a - 1`. -/
def abC1 : Constraint := ⟨fun a => [.num (getQ (a.headD (.num 0)) - 1)], ["a"], ["b"]⟩

/-- The two-relation cycle `a = b + 1`, `b = a - 1`, from `a = b = 0`. -/
def abL : Lattice := { nodes := [("a", .num 0), ("b", .num 0)], constraints := [abC0, abC1] }

/-- Relation producing `1` from the opaque node `s`. -/
def opC0 : Constraint := ⟨fun _ => [.num 1], ["s"], ["y"]⟩

/-- Relation copying `y` to `z` (it puts `opC0` into the relation graph). -/
def opC1 : Constraint := ⟨fun a => [a.headD (.num 0)], ["y"], ["z"]⟩

/-- A well-formed lattice mixing an opaque value into a linearized SCC. -/
def opL : Lattice :=
  { nodes := [("s", .opaq "foo"), ("y", .num 0), ("z", .num 0)],
    constraints := [opC0, opC1] }

/-- Relation `q = p + m`, where `m` is never registered. -/
def pmC0 : Constraint :=
  ⟨fun a => [.num (getQ (a.getD 0 (.num 0)) + getQ (a.getD 1 (.num 0)))], ["p", "m"], ["q"]⟩

/-- Relation `p = q`. -/
def pmC1 : Constraint := ⟨fun a => [a.headD (.num 0)], ["q"], ["p"]⟩

/-- A cyclic SCC whose relaxation hits a missing node after a first write. -/
def pmL : Lattice :=
  { nodes := [("p", .num 0), ("q", .num 5)], constraints := [pmC0, pmC1] }

/-- A lattice with no constraints and an unrounded numeric node. -/
def zL : Lattice := { nodes := [("z", .num (1 / 10000000))], constraints := [] }

/-- Relation `y = x * x` (nonlinear). -/
def sqC : Constraint :=
  ⟨fun a => [.num (getQ (a.headD (.num 0)) * getQ (a.headD (.num 0)))], ["x"], ["y"]⟩

/-- Relation `x = y`. -/
def sqC1 : Constraint := ⟨fun a => [a.headD (.num 0)], ["y"], ["x"]⟩

/-- The nonlinear cycle `y = x²`, `x = y`, from `x = 3`. -/
def sqL : Lattice :=
  { nodes := [("x", .num 3), ("y", .num 0)], constraints := [sqC, sqC1] }

/-- Relation copying `y` into `z` (affine chain link). -/
def chC1 : Constraint := ⟨fun a => [a.headD (.num 0)], ["y"], ["z"]⟩

/-- The affine chain `y = 2*x + 3`, `z = y` with `x = 0`. -/
def chainL : Lattice :=
  { nodes := [("x", .num 0), ("y", .none), ("z", .none)],
    constraints := [⟨fun a => [.num (2 * getQ (a.headD (.num 0)) + 3)], ["x"], ["y"]⟩, chC1] }

/-- Relation `u = t`. -/
def tC0 : Constraint := ⟨fun a => [a.headD (.num 0)], ["t"], ["u"]⟩

/-- Relation `v = u - w`; node `w` is never registered. -/
def tC1 : Constraint :=
  ⟨fun a => [.num (getQ (a.getD 0 (.num 0)) - getQ (a.getD 1 (.num 0)))], ["u", "w"], ["v"]⟩

/-- Relation `(w, t) = (v, v)`: it writes the unregistered name `w`. -/
def tC2 : Constraint := ⟨fun a => [a.headD (.num 0), a.headD (.num 0)], ["v"], ["w", "t"]⟩

/-- A three-relation SCC whose Step A is singular and whose relaxation writes
the never-registered output name `w` into the mapping. -/
def wL : Lattice :=
  { nodes := [("t", .num 0), ("u", .num 0), ("v", .num 4)],
    constraints := [tC0, tC1, tC2] }

/-- The nonlinear cycle's mapping as settled by the first `propagate` call. -/
def sqL2 : Lattice :=
  { nodes := (propagate sqL).1, constraints := sqL.constraints }

/-- The affine chain's mapping as settled by the first `propagate` call. -/
def chainL2 : Lattice :=
  { nodes := (propagate chainL).1, constraints := chainL.constraints }

/-! ## Specification predicates -/

/-- Round a numeric value to 6 decimal places, fix everything else. -/
def roundVal : Val → Val
  | .num q => .num (round6 q)
  | v => v

/-- Every numeric value stored in the mapping is a fixed point of 6-decimal
rounding (the spec's rounding invariant). -/
def AllRounded (m : NodeMap) : Prop := ∀ p ∈ m, roundVal (Prod.snd p) = Prod.snd p

/-- Whether a value is numeric. -/
def isNum : Val → Bool
  | .num _ => true
  | _ => false

/-- Every stored node value is numeric. -/
def NumOnly (m : NodeMap) : Prop := ∀ p ∈ m, isNum (Prod.snd p) = true

/-- Every declared input of every constraint is a key of the mapping. -/
def InputsRegistered (cons : List Constraint) (m : NodeMap) : Prop :=
  ∀ c ∈ cons, ∀ i ∈ c.inputs, (List.lookup i m).isSome = true

/-- A relation function is numerically well-behaved: on any argument list it
returns exactly one numeric value per declared output. -/
def NumFunc (c : Constraint) : Prop :=
  ∀ args : List Val, (c.func args).length = c.outputs.length ∧
    ∀ v ∈ c.func args, isNum v = true

/-- The keys of `m` survive into `m2` (mutation only adds or rewrites). -/
def KeyMono (m m2 : NodeMap) : Prop :=
  ∀ k : String, (List.lookup k m).isSome = true → (List.lookup k m2).isSome = true

/-- Bound on a graph's vertices: every key and every neighbor is `< N`. -/
def GraphBound (g : List (Nat × List Nat)) (N : Nat) : Prop :=
  ∀ p ∈ g, Prod.fst p < N ∧ ∀ x ∈ Prod.snd p, x < N

/-- Bound on the dependency map: every constraint index stored is `< N`. -/
def DepBound (g : List (String × List Nat)) (N : Nat) : Prop :=
  ∀ p ∈ g, ∀ x ∈ Prod.snd p, x < N

/-- Bound on Tarjan's state: stack entries and emitted SCC members are `< N`. -/
def SccBound (st : TarjanSt) (N : Nat) : Prop :=
  (∀ x ∈ st.stack, x < N) ∧ ∀ scc ∈ st.sccs, ∀ x ∈ scc, x < N

/-! ## Claims -/

/-- **C1** (code bug): the spec requires that with `x = 0` and the single
relation `y = 2*x + 3` (inputs `[x]`, outputs `[y]`), `propagate` leaves
`y = 3.0` via the Step-A linear solve. In the code, a relation whose outputs
feed no other relation never becomes a vertex of `constraint_graph`, Tarjan
is run only over that graph's vertices, so the SCC list is empty and the
relation is never evaluated: `y` stays unset. -/
theorem C1_affine_system_never_solved :
    sccsOf xyL.constraints = [] ∧
    propagate xyL = ([("x", Val.num 0), ("y", Val.none)], Option.none) ∧
    List.lookup "y" (propagate xyL).1 ≠ some (Val.num 3) := by
  exact ⟨by decide, by decide, by decide⟩

/-- **C3** (counterexample): the claim says a caller never observes a node
mapping in which some nodes of the failing SCC were updated before the
failure. In `pmL` the SCC `[1, 0]` relaxes: relation 1 writes `p := 2.5`,
then relation 0 hits the unregistered input `m` and raises — the caller
sees the exception together with `p` already moved from `0` to `2.5`. -/
theorem C3_counterexample :
    (propagate pmL).2 = some (Err.missingNode "m") ∧
    List.lookup "p" (propagate pmL).1 = some (Val.num (5 / 2)) ∧
    List.lookup "p" pmL.nodes = some (Val.num 0) := by
  exact ⟨by decide, by decide, by decide⟩

/-- **C3** (amended): when `propagate` fails, the caller observes an explicit
failure together with the mapping as mutated up to the failure point:
relations evaluated earlier in the failing pass keep their writes (here the
damped update `p := 0 + 0.5*(5 - 0) = 2.5`), and only the relations at and
after the failing one are unapplied. -/
theorem C3_amended_explicit_failure_with_prior_writes :
    propagate pmL =
      ([("p", Val.num (5 / 2)), ("q", Val.num 5)], some (Err.missingNode "m")) := by
  decide

/-- **C5** (counterexample): the claim says that after every completed
`propagate` call every numeric node equals its value rounded to 6 decimal
places. With no constraints the SCC list is empty, the rounding sweep (which
lives inside the per-SCC relaxation branch) never runs, and a pre-existing
node keeps the unrounded value `1e-7`. -/
theorem C5_counterexample :
    propagate zL = ([("z", Val.num (1 / 10000000))], Option.none) ∧
    round6 (1 / 10000000) ≠ (1 / 10000000 : ℚ) := by
  exact ⟨by decide, by decide⟩

/-- **C6** (counterexample): the claim says relations within an SCC are
evaluated in registration order. The SCC of `a = b + 1` (relation 0),
`b = a - 1` (relation 1) comes out of Tarjan's stack as `[1, 0]`, and one
relaxation pass in that order is observably different from one pass in
registration order `[0, 1]`. -/
theorem C6_counterexample :
    sccsOf abL.constraints = [[1, 0]] ∧
    relaxPass [abC1, abC0] abL.nodes false ≠ relaxPass [abC0, abC1] abL.nodes false := by
  exact ⟨by decide, by decide⟩

/-- **C6** (amended): relations within an SCC are evaluated in the SCC-list
order produced by Tarjan's stack pops — deterministic for identical input,
but not registration order. For the two-relation cycle the order is
relation 1 then relation 0: from `a = b = 0` the pass first damps
`b := 0 + 0.5*((0 - 1) - 0) = -0.5` and only then `a := 0 + 0.5*((-0.5 + 1) - 0) = 0.25`. -/
theorem C6_amended_pop_order_evaluation :
    sccConstraints abL.constraints [1, 0] = Except.ok [abC1, abC0] ∧
    relaxPass [abC1, abC0] abL.nodes false =
      ([("a", Val.num (1 / 4)), ("b", Val.num (-1 / 2))], true, Option.none) := by
  exact ⟨rfl, by decide⟩

/-- **C9** (counterexample): the claim says a second `propagate` on a settled
mapping moves no numeric node by more than `1e-6`. With the nonlinear cycle
`y = x²`, `x = y` from `x = 3`, the first call's Step A solves the
linearization at `x = 3` giving `x = y = 2`; the second call re-linearizes at
`x = 2` and solves to `x = y = 1.5`, a move of `0.5`. -/
theorem C9_counterexample :
    propagate sqL = ([("x", Val.num 2), ("y", Val.num 2)], Option.none) ∧
    propagate sqL2 = ([("x", Val.num (3 / 2)), ("y", Val.num (3 / 2))], Option.none) ∧
    ¬ |(3 / 2 : ℚ) - 2| ≤ tolerance := by
  exact ⟨by decide, by decide, by decide⟩

/-- **C9** (amended): re-running `propagate` on a settled mapping is
idempotent when the relations are affine — the re-linearization rebuilds the
same linear system, so Step A rewrites the same values: on the affine chain
`y = 2*x + 3`, `z = y` the second call reproduces the settled mapping
exactly (so no numeric node moves by more than `1e-6` and no opaque node
moves at all); with nonlinear relations or a cap-truncated relaxation the
claim fails (see the counterexample). -/
theorem C9_amended_affine_idempotence :
    propagate chainL = ([("x", Val.num 0), ("y", Val.num 3), ("z", Val.num 3)], Option.none) ∧
    propagate chainL2 = ((propagate chainL).1, Option.none) := by
  exact ⟨by decide, by decide⟩

/-- **C10**: a relation output that was never registered (`w` in `wL`) is
not collected as a Step-A variable (`variablesOf` keeps only registered
outputs `t`, `u`, `v`), yet Step-B relaxation writes the computed value
under that name, so the settled mapping contains an entry the caller never
registered. -/
theorem C10_unregistered_output_written :
    List.lookup "w" wL.nodes = Option.none ∧
    sccsOf wL.constraints = [[2, 1, 0]] ∧
    variablesOf [tC2, tC1, tC0] wL.nodes = ["t", "u", "v"] ∧
    propagate wL =
      ([("t", Val.num (1 / 200000)), ("u", Val.num (7 / 1000000)),
        ("v", Val.num (1 / 250000)), ("w", Val.num (1 / 200000))], Option.none) := by
  exact ⟨by decide, by decide, by decide, by decide⟩

/-- **C2** (counterexample): the claim says `propagate` never raises for a
well-formed graph (all declared inputs registered, total relation functions,
node values numeric or opaque). In `opL` every input is registered and every
value is numeric or opaque, yet the opaque value `s` sits in an SCC with a
registered output variable, so Step A's `float()` conversion of the baseline
input raises, and `propagate` surfaces the exception with the mapping
untouched. -/
theorem C2_counterexample :
    (∀ c ∈ opL.constraints, ∀ i ∈ c.inputs, (List.lookup i opL.nodes).isSome = true) ∧
    (∀ p ∈ opL.nodes, p.2 ≠ Val.none) ∧
    propagate opL = (opL.nodes, some Err.typeErr) := by
  exact ⟨by decide, by decide, by decide⟩

/-- **C4**: `propagate` terminates on every input. In the model the
relaxation loop is fuel-indexed; with the fuel `propagate` supplies
(`iterationLimit + 2`) the loop always ends by repeated-state detection, the
iteration cap, an unchanged pass, or a raised exception — never by fuel
exhaustion. On the two-relation SCC `a = b + 1`, `b = a - 1` from
`a = b = 0`, `propagate` returns the deterministic rounded pair
`a = 0.333332`, `b = -0.666666`. -/
theorem C4_termination_and_determinism :
    (∀ (cs : List Constraint) (fuel it : Nat) (seen : List (List (String × Val)))
        (m : NodeMap), iterationLimit + 2 ≤ fuel + it → 1 ≤ fuel →
        (relaxLoop cs fuel seen it m).2.2 ≠ Stop.fuelOut) ∧
    propagate abL =
      ([("a", Val.num (83333 / 250000)), ("b", Val.num (-333333 / 500000))], Option.none) := by
  constructor
  · intro cs fuel
    induction fuel with
    | zero => intro it seen m _ h1; exact absurd h1 (by omega)
    | succ f ih =>
      intro it seen m h _
      have hlim : iterationLimit = 1000 := rfl
      rw [relaxLoop]
      by_cases hseen : sortNodes m ∈ seen
      · simp [hseen]
      · simp only [if_neg hseen]
        by_cases hcap : it + 1 > iterationLimit
        · simp [hcap]
        · simp only [if_neg hcap]
          rcases hr : relaxPass cs m false with ⟨m', ch', e⟩
          rcases e with _ | e
          · rcases ch' with _ | _
            · simp
            · simp only []
              exact ih (it + 1) (sortNodes m :: seen) m' (by omega) (by omega)
          · simp
  · decide

/-- Witness for C4: the hypotheses hold at fuel 1002, iteration 0 (the
values `propagate` uses), and the concrete cycle settles as stated. -/
theorem C4_witness :
    (relaxLoop [] 1002 [] 0 []).2.2 ≠ Stop.fuelOut ∧
    propagate abL =
      ([("a", Val.num (83333 / 250000)), ("b", Val.num (-333333 / 500000))], Option.none) :=
  ⟨C4_termination_and_determinism.1 [] 1002 0 [] [] (by decide) (by decide),
   C4_termination_and_determinism.2⟩

/-- **C8**: in Step B, when the stored value and the newly computed value of
an output are both numeric, the update is exactly
`updated = old + 0.5 * (new - old)`; if `|updated - old| ≤ 1e-6` the stored
value is unchanged and the output is not flagged as changed, otherwise
`updated` is stored and the changed flag is set. -/
theorem C8_damped_update (m : NodeMap) (outId : String) (old n : ℚ)
    (h : List.lookup outId m = some (Val.num old)) :
    (|old + (1 / 2 : ℚ) * (n - old) - old| ≤ tolerance →
        applyOutput m outId (Val.num n) = (m, false)) ∧
    (¬ |old + (1 / 2 : ℚ) * (n - old) - old| ≤ tolerance →
        applyOutput m outId (Val.num n) =
          (setVal m outId (Val.num (old + (1 / 2 : ℚ) * (n - old))), true)) := by
  have harg : old + (1 / 2 : ℚ) * (n - old) - old = 2⁻¹ * (n - old) := by ring
  constructor
  · intro hle
    rw [harg] at hle
    simp [applyOutput, getD, h, hle]
  · intro hgt
    rw [harg] at hgt
    have hne : ¬ old + 2⁻¹ * (n - old) = old := by
      intro hh
      apply hgt
      have h0 : (2⁻¹ : ℚ) * (n - old) = 0 := by linarith
      rw [h0]
      simp [tolerance]
    have harg2 : old + (1 / 2 : ℚ) * (n - old) = old + 2⁻¹ * (n - old) := by ring
    rw [harg2]
    simp [applyOutput, getD, h, hgt, hne]

/-- Witness for C8: a concrete mapping with `old = 0`, `new = 1`; the update
`0.5` exceeds the tolerance, so the damped value is stored and flagged. -/
theorem C8_witness :
    applyOutput [("a", Val.num 0)] "a" (Val.num 1) =
      (setVal [("a", Val.num 0)] "a" (Val.num (0 + (1 / 2 : ℚ) * (1 - 0))), true) :=
  (C8_damped_update [("a", Val.num 0)] "a" 0 1 rfl).2 (by decide)

/-- **C7**: within Step A (variables nonempty, rows built without error and
nonempty), the linearized solution is accepted iff the coefficient matrix's
rank equals the number of tracked variables and the least-squares solve
succeeds (any numerical failure is treated as unsolved); when accepted the
variables are assigned their solved values rounded to 6 decimal places and
Step B is skipped for the SCC, otherwise control falls through to Step B. -/
theorem C7_stepA_acceptance (cons : List Constraint) (m : NodeMap) (scc : List Nat)
    (cs : List Constraint) (rc : List (List ℚ) × List ℚ)
    (h1 : sccConstraints cons scc = Except.ok cs)
    (h2 : variablesOf cs m ≠ [])
    (h3 : buildRows cs m (variablesOf cs m) = Except.ok rc)
    (h4 : rc.1 ≠ []) :
    (∀ sol, rank rc.1 = (variablesOf cs m).length →
        lstsq (variablesOf cs m).length rc.1 rc.2 = some sol →
        stepA cs m = Except.ok (some (stepAWrite (variablesOf cs m) sol m)) ∧
        processSCC cons m scc = (stepAWrite (variablesOf cs m) sol m, Option.none, true)) ∧
    (rank rc.1 ≠ (variablesOf cs m).length →
        stepA cs m = Except.ok Option.none ∧
        processSCC cons m scc = relaxAndRound cs m) ∧
    (lstsq (variablesOf cs m).length rc.1 rc.2 = Option.none →
        stepA cs m = Except.ok Option.none ∧
        processSCC cons m scc = relaxAndRound cs m) := by
  have hb : (variablesOf cs m).isEmpty = false := by
    cases hv : variablesOf cs m with
    | nil => exact absurd hv h2
    | cons a l => rfl
  have hbr : rc.1.isEmpty = false := by
    cases hv : rc.1 with
    | nil => exact absurd hv h4
    | cons a l => rfl
  refine ⟨?_, ?_, ?_⟩
  · intro sol hrank hsol
    have hA : stepA cs m = Except.ok (some (stepAWrite (variablesOf cs m) sol m)) := by
      unfold stepA
      simp [hb, h3, hbr, hrank, hsol]
    refine ⟨hA, ?_⟩
    unfold processSCC
    rw [h1]
    simp [hA]
  · intro hrank
    have hA : stepA cs m = Except.ok Option.none := by
      unfold stepA
      simp [hb, h3, hbr, hrank]
    refine ⟨hA, ?_⟩
    unfold processSCC
    rw [h1]
    simp [hA]
  · intro hsol
    have hA : stepA cs m = Except.ok Option.none := by
      unfold stepA
      by_cases hrank : rank rc.1 = (variablesOf cs m).length
      · simp [hb, h3, hbr, hrank, hsol]
      · simp [hb, h3, hbr, hrank]
    refine ⟨hA, ?_⟩
    unfold processSCC
    rw [h1]
    simp [hA]

/-- Witness for C7: on the cycle `a = b + 1`, `b = a - 1` the linearized
system `[[-1, 1], [1, -1]]` has rank 1 against 2 variables, so Step A
rejects it and the SCC falls through to relaxation. -/
theorem C7_witness :
    stepA [abC1, abC0] abL.nodes = Except.ok Option.none ∧
    processSCC abL.constraints abL.nodes [1, 0] = relaxAndRound [abC1, abC0] abL.nodes :=
  (C7_stepA_acceptance abL.constraints abL.nodes [1, 0] [abC1, abC0]
      ([[-1, 1], [1, -1]], [-1, 1]) rfl (by decide) (by decide) (by decide)).2.1 (by decide)

/-- Rounding to 6 decimal places is idempotent. -/
theorem round6_round6 (q : ℚ) : round6 (round6 q) = round6 q := by
  unfold round6
  rw [div_mul_cancel₀, round_intCast]
  norm_num

/-- Value-level rounding is idempotent. -/
theorem roundVal_idem (v : Val) : roundVal (roundVal v) = roundVal v := by
  cases v <;> simp [roundVal, round6_round6]

/-- The rounding sweep establishes the rounding invariant. -/
theorem allRounded_roundMap (m : NodeMap) : AllRounded (roundMap m) := by
  intro p hp
  unfold roundMap at hp
  rcases List.mem_map.mp hp with ⟨q, _, rfl⟩
  cases hq : q.2 <;> simp [hq, roundVal, round6_round6]

/-- Writing an already-rounded value preserves the rounding invariant. -/
theorem allRounded_setVal {m : NodeMap} {k : String} {v : Val}
    (h : AllRounded m) (hv : roundVal v = v) : AllRounded (setVal m k v) := by
  induction m with
  | nil =>
    intro p hp
    simp only [setVal, List.mem_singleton] at hp
    subst hp
    exact hv
  | cons a rest ih =>
    have hhead : roundVal a.2 = a.2 := h a (List.mem_cons_self a rest)
    have htail : AllRounded rest := fun p hp => h p (List.mem_cons_of_mem a hp)
    intro p hp
    rcases a with ⟨k', v'⟩
    simp only [setVal] at hp
    by_cases hk : k' = k
    · rw [if_pos hk] at hp
      simp only [List.mem_cons] at hp
      rcases hp with rfl | hp
      · exact hv
      · exact htail p hp
    · rw [if_neg hk] at hp
      simp only [List.mem_cons] at hp
      rcases hp with rfl | hp
      · exact hhead
      · exact ih htail p hp

/-- The Step-A write-back stores only rounded values, so it preserves the
rounding invariant. -/
theorem allRounded_stepAWrite {vars : List String} {sol : List ℚ} {m : NodeMap}
    (h : AllRounded m) : AllRounded (stepAWrite vars sol m) := by
  unfold stepAWrite
  generalize vars.enum = l
  induction l generalizing m with
  | nil => exact h
  | cons p l ih =>
    exact ih (allRounded_setVal h (by simp [roundVal, round6_round6]))

/-- Inversion of an accepted Step A: the result is the rounded write-back of
some solution vector. -/
theorem stepA_some_inv {cs : List Constraint} {m ma : NodeMap}
    (h : stepA cs m = Except.ok (some ma)) :
    ∃ sol, ma = stepAWrite (variablesOf cs m) sol m := by
  simp only [stepA] at h
  split at h
  · cases h
  · split at h
    · cases h
    · split at h
      · cases h
      · split at h
        · split at h
          · rename_i sol hsol
            injection h with h'
            injection h' with h''
            exact ⟨sol, h''.symm⟩
          · cases h
        · cases h

/-- A completed Step-B path ends in the rounding sweep, so its result
satisfies the rounding invariant (and its solved flag is `false`). -/
theorem relaxAndRound_allRounded {cs : List Constraint} {m m' : NodeMap} {s : Bool}
    (h : relaxAndRound cs m = (m', Option.none, s)) : AllRounded m' ∧ s = false := by
  unfold relaxAndRound at h
  rcases hl : relaxLoop cs (iterationLimit + 2) [] 0 m with ⟨m2, e2, st2⟩
  rw [hl] at h
  cases e2 with
  | none =>
    injection h with h1 h2
    injection h2 with h2 h3
    exact ⟨h1 ▸ allRounded_roundMap m2, h3.symm⟩
  | some e =>
    injection h with h1 h2
    injection h2 with h2 h3
    cases h2

/-- One processed SCC: a Step-B SCC establishes the rounding invariant, a
Step-A SCC preserves it. -/
theorem processSCC_allRounded {cons : List Constraint} {m : NodeMap} {scc : List Nat}
    {m' : NodeMap} {solved : Bool}
    (h : processSCC cons m scc = (m', Option.none, solved)) :
    (solved = false → AllRounded m') ∧ (AllRounded m → AllRounded m') := by
  unfold processSCC at h
  split at h
  · simp at h
  · rename_i cs hsc
    split at h
    · simp at h
    · rename_i ma hA
      injection h with h1 h2
      injection h2 with h2 h3
      subst h1
      rcases stepA_some_inv hA with ⟨sol, rfl⟩
      refine ⟨fun hs => ?_, fun hm => allRounded_stepAWrite hm⟩
      rw [← h3] at hs
      cases hs
    · rcases relaxAndRound_allRounded h with ⟨hr, _⟩
      exact ⟨fun _ => hr, fun _ => hr⟩

/-- Folding the SCC list: if some SCC took the Step-B path (the ghost flag
came out `false`), the final mapping satisfies the rounding invariant. -/
theorem propagateAux_allRounded (cons : List Constraint) :
    ∀ (sccs : List (List Nat)) (m : NodeMap) (allA : Bool) (m' : NodeMap),
    propagateAux cons sccs m allA = (m', Option.none, false) →
    (allA = false → AllRounded m) → AllRounded m' := by
  intro sccs
  induction sccs with
  | nil =>
    intro m allA m' h hPrev
    unfold propagateAux at h
    injection h with h1 h2
    injection h2 with h2 h3
    subst h1
    exact hPrev h3
  | cons scc rest ih =>
    intro m allA m' h hPrev
    unfold propagateAux at h
    rcases hp : processSCC cons m scc with ⟨m2, e2, solved⟩
    rw [hp] at h
    cases e2 with
    | some e =>
      injection h with h1 h2
      injection h2 with h2 h3
      cases h2
    | none =>
      refine ih m2 (allA && solved) m' h ?_
      intro hf
      rcases processSCC_allRounded hp with ⟨hB, hK⟩
      cases solved with
      | false => exact hB rfl
      | true =>
        have hA : allA = false := by simpa using hf
        exact hK (hPrev hA)

/-- **C5** (amended): after every completed `propagate` call in which at
least one SCC fell through to Step-B relaxation (ghost flag `false`), every
numeric node's stored value equals that value rounded to 6 decimal places —
for all nodes of the mapping, not only the ones written during the call. In
a call where every SCC is solved by Step A (or the SCC list is empty) only
the written nodes are guaranteed rounded (see the counterexample). -/
theorem C5_rounding_amended (L : Lattice) (m : NodeMap)
    (h : propagateFull L = (m, Option.none, false)) : AllRounded m := by
  unfold propagateFull at h
  exact propagateAux_allRounded L.constraints (sccsOf L.constraints) L.nodes true m h
    (fun hf => by cases hf)

/-- Witness for the amended C5: the relaxed cycle `abL` ends with the ghost
flag `false` and its settled mapping is rounded. -/
theorem C5_amended_witness :
    AllRounded [("a", Val.num (83333 / 250000)), ("b", Val.num (-333333 / 500000))] :=
  C5_rounding_amended abL
    [("a", Val.num (83333 / 250000)), ("b", Val.num (-333333 / 500000))] (by decide)

/-! ### Lemmas: numeric invariants of the mapping -/

/-- Characterization of numeric values. -/
theorem isNum_iff {v : Val} : isNum v = true ↔ ∃ q, v = Val.num q := by
  cases v <;> simp [isNum]

/-- A lookup in an all-numeric mapping yields a numeric value. -/
theorem numOnly_lookup {m : NodeMap} {k : String} {v : Val}
    (h : NumOnly m) (hl : List.lookup k m = some v) : isNum v = true := by
  induction m with
  | nil => cases hl
  | cons a rest ih =>
    rcases a with ⟨k', v'⟩
    rw [List.lookup_cons] at hl
    split at hl
    · injection hl with hl
      subst hl
      exact h (k', v') (List.mem_cons_self _ _)
    · exact ih (fun p hp => h p (List.mem_cons_of_mem _ hp)) hl

/-- Writing a numeric value keeps the mapping all-numeric. -/
theorem numOnly_setVal {m : NodeMap} {k : String} {v : Val}
    (h : NumOnly m) (hv : isNum v = true) : NumOnly (setVal m k v) := by
  induction m with
  | nil =>
    intro p hp
    simp only [setVal, List.mem_singleton] at hp
    subst hp
    exact hv
  | cons a rest ih =>
    have htail : NumOnly rest := fun p hp => h p (List.mem_cons_of_mem a hp)
    intro p hp
    rcases a with ⟨k', v'⟩
    simp only [setVal] at hp
    by_cases hk : k' = k
    · rw [if_pos hk] at hp
      rcases List.mem_cons.mp hp with rfl | hp
      · exact hv
      · exact htail p hp
    · rw [if_neg hk] at hp
      rcases List.mem_cons.mp hp with rfl | hp
      · exact h (k', v') (List.mem_cons_self _ _)
      · exact ih htail p hp

/-- Where a lookup lands after a dict assignment. -/
theorem lookup_setVal (m : NodeMap) (k' : String) (v : Val) (k : String) :
    List.lookup k (setVal m k' v) = if k = k' then some v else List.lookup k m := by
  induction m with
  | nil =>
    by_cases hk : k = k'
    · simp [setVal, List.lookup_cons, hk]
    · have hb : (k == k') = false := beq_eq_false_iff_ne.mpr hk
      simp [setVal, List.lookup_cons, hk, hb]
  | cons a rest ih =>
    rcases a with ⟨k0, v0⟩
    by_cases h0 : k0 = k'
    · subst h0
      by_cases hk : k = k0
      · simp [setVal, List.lookup_cons, hk]
      · have hb : (k == k0) = false := beq_eq_false_iff_ne.mpr hk
        simp [setVal, List.lookup_cons, hk, hb]
    · by_cases hk : k = k0
      · subst hk
        simp [setVal, h0, List.lookup_cons]
      · have hb : (k == k0) = false := beq_eq_false_iff_ne.mpr hk
        simp [setVal, h0, List.lookup_cons, hb, ih]

/-- A dict assignment never deletes keys. -/
theorem keyMono_setVal (m : NodeMap) (k' : String) (v : Val) :
    KeyMono m (setVal m k' v) := by
  intro k hk
  rw [lookup_setVal]
  by_cases hkk : k = k'
  · simp [hkk]
  · simpa [hkk] using hk

/-- The rounding sweep keeps the mapping all-numeric. -/
theorem numOnly_roundMap {m : NodeMap} (h : NumOnly m) : NumOnly (roundMap m) := by
  intro p hp
  rcases List.mem_map.mp hp with ⟨q, hq, rfl⟩
  cases hv : q.2 with
  | num x => simp [hv, isNum]
  | none =>
    have := h q hq
    rw [hv] at this
    cases this
  | opaq s =>
    have := h q hq
    rw [hv] at this
    cases this

/-- Where a lookup lands after the rounding sweep. -/
theorem lookup_roundMap (m : NodeMap) (k : String) :
    List.lookup k (roundMap m) = Option.map roundVal (List.lookup k m) := by
  induction m with
  | nil => rfl
  | cons a rest ih =>
    rcases a with ⟨k0, v0⟩
    by_cases hkk : k = k0
    · cases v0 <;> simp [roundMap, List.lookup_cons, hkk, roundVal]
    · have hb : (k == k0) = false := beq_eq_false_iff_ne.mpr hkk
      cases v0 <;> simpa [roundMap, List.lookup_cons, hb] using ih

/-- The rounding sweep keeps every key. -/
theorem keyMono_roundMap (m : NodeMap) : KeyMono m (roundMap m) := by
  intro k hk
  rw [lookup_roundMap]
  cases hl : List.lookup k m with
  | none => rw [hl] at hk; cases hk
  | some v => rfl

/-- Key preservation composes. -/
theorem keyMono_trans {m1 m2 m3 : NodeMap} (h1 : KeyMono m1 m2) (h2 : KeyMono m2 m3) :
    KeyMono m1 m3 := fun k hk => h2 k (h1 k hk)

/-- Key preservation is reflexive. -/
theorem keyMono_refl (m : NodeMap) : KeyMono m m := fun _ hk => hk

/-! ### Lemmas: Step A never raises on an all-numeric mapping -/

/-- Baseline conversion of one input never fails on an all-numeric mapping. -/
theorem toFloat_getD_ok {m : NodeMap} (h : NumOnly m) (k : String) :
    ∃ q, toFloat (getD m k (Val.num 0)) = Except.ok q := by
  unfold getD
  cases hl : List.lookup k m with
  | none => exact ⟨0, rfl⟩
  | some v =>
    rcases isNum_iff.mp (numOnly_lookup h hl) with ⟨q, rfl⟩
    exact ⟨q, rfl⟩

/-- The baseline vector of a constraint never fails on an all-numeric
mapping. -/
theorem baselineInputs_ok {m : NodeMap} (h : NumOnly m) (l : List String) :
    ∃ qs, baselineInputs m l = Except.ok qs := by
  induction l with
  | nil => exact ⟨[], rfl⟩
  | cons i rest ih =>
    rcases toFloat_getD_ok h i with ⟨q, hq⟩
    rcases ih with ⟨qs, hqs⟩
    exact ⟨q :: qs, by simp [baselineInputs, hq, hqs]⟩

/-- Indexing a list of all-numeric values inside its length succeeds with a
number. -/
theorem outAt_num {vals : List Val} {j : Nat}
    (hn : ∀ v ∈ vals, isNum v = true) (hj : j < vals.length) :
    ∃ q, outAt vals j = Except.ok (Val.num q) := by
  cases hv : vals.get? j with
  | none =>
    rw [List.get?_eq_none] at hv
    omega
  | some v =>
    have hm : v ∈ vals := List.get?_mem hv
    rcases isNum_iff.mp (hn v hm) with ⟨q, rfl⟩
    refine ⟨q, ?_⟩
    unfold outAt
    rw [hv]

/-- Index position of an enumerated element. -/
theorem enum_fst_lt {α : Type} {l : List α} {p : Nat × α} (h : p ∈ l.enum) :
    p.1 < l.length := by
  have h2 : l[p.1]? = some p.2 := List.mem_enum_iff_getElem?.mp h
  rcases List.getElem?_eq_some_iff.mp h2 with ⟨hlt, _⟩
  exact hlt

/-- The perturbation loop never fails when the relation is numerically
well-behaved and the output position is in range. -/
theorem perturbFold_ok (c : Constraint) (baseline : List ℚ) (bOut : Val)
    (outPos : Nat) (vars : List String)
    (hc : NumFunc c) (hb : isNum bOut = true) (hp : outPos < c.outputs.length) :
    ∀ (l : List (Nat × String)) (rc : List ℚ × ℚ),
    ∃ rc2, perturbFold c baseline bOut outPos vars l rc = Except.ok rc2 := by
  intro l
  induction l with
  | nil => exact fun rc => ⟨rc, rfl⟩
  | cons q rest ih =>
    intro rc
    unfold perturbFold
    cases hw : vars.indexOf? q.2 with
    | none => exact ih rc
    | some wi =>
      have hlen : (c.func ((baseline.set q.1 (baseline.getD q.1 0 + 1)).map Val.num)).length
          = c.outputs.length := (hc _).1
      have hnum : ∀ v ∈ c.func ((baseline.set q.1 (baseline.getD q.1 0 + 1)).map Val.num),
          isNum v = true := (hc _).2
      have hplen : outPos <
          (c.func ((baseline.set q.1 (baseline.getD q.1 0 + 1)).map Val.num)).length := by
        rw [hlen]; exact hp
      rcases outAt_num hnum hplen with ⟨pq, hpq⟩
      rcases isNum_iff.mp hb with ⟨bq, rfl⟩
      rcases ih (rc.1.set wi (rc.1.getD wi 0 - (pq - bq)),
        rc.2 - (pq - bq) * baseline.getD q.1 0) with ⟨rc2, hrc2⟩
      exact ⟨rc2, by simp only [hpq, toFloat, hrc2]⟩

/-- The per-output equation loop never fails when the relation is
numerically well-behaved and all enumerated positions are in range. -/
theorem outRows_ok (c : Constraint) (baseline : List ℚ) (basev : List Val)
    (vars : List String)
    (hc : NumFunc c) (hlen : basev.length = c.outputs.length)
    (hnum : ∀ v ∈ basev, isNum v = true) :
    ∀ (l : List (Nat × String)) (acc : List (List ℚ) × List ℚ),
    (∀ p ∈ l, Prod.fst p < c.outputs.length) →
    ∃ acc2, outRows c baseline basev vars l acc = Except.ok acc2 := by
  intro l
  induction l with
  | nil => exact fun acc _ => ⟨acc, rfl⟩
  | cons p rest ih =>
    intro acc hb
    unfold outRows
    cases hv : vars.indexOf? p.2 with
    | none => exact ih acc (fun x hx => hb x (List.mem_cons_of_mem _ hx))
    | some vi =>
      have hpos : p.1 < basev.length := by
        rw [hlen]
        exact hb p (List.mem_cons_self _ _)
      rcases outAt_num hnum hpos with ⟨bq, hbq⟩
      rcases perturbFold_ok c baseline (Val.num bq) p.1 vars hc rfl
          (hb p (List.mem_cons_self _ _)) c.inputs.enum
          ((List.replicate vars.length (0 : ℚ)).set vi 1, bq) with ⟨rc, hrc⟩
      rcases ih (acc.1 ++ [rc.1], acc.2 ++ [rc.2])
          (fun x hx => hb x (List.mem_cons_of_mem _ hx)) with ⟨acc2, hacc2⟩
      exact ⟨acc2, by simp only [hbq, toFloat, hrc, hacc2]⟩

/-- Building the linearized system never fails on an all-numeric mapping
with numerically well-behaved relations. -/
theorem buildRowsAux_ok {m : NodeMap} (h : NumOnly m) (vars : List String) :
    ∀ (cs : List Constraint), (∀ c ∈ cs, NumFunc c) →
    ∀ acc, ∃ acc2, buildRowsAux m vars cs acc = Except.ok acc2 := by
  intro cs
  induction cs with
  | nil => exact fun _ acc => ⟨acc, rfl⟩
  | cons c rest ih =>
    intro hcs acc
    have hc : NumFunc c := hcs c (List.mem_cons_self _ _)
    rcases baselineInputs_ok h c.inputs with ⟨baseline, hbl⟩
    rcases outRows_ok c baseline (c.func (baseline.map Val.num)) vars hc
        (hc _).1 (hc _).2 c.outputs.enum acc
        (fun p hp => enum_fst_lt hp) with ⟨acc1, hacc1⟩
    rcases ih (fun x hx => hcs x (List.mem_cons_of_mem _ hx)) acc1 with ⟨acc2, hacc2⟩
    exact ⟨acc2, by simp only [buildRowsAux, hbl, hacc1, hacc2]⟩

/-- The Step-A write-back keeps the mapping all-numeric. -/
theorem numOnly_stepAWrite {vars : List String} {sol : List ℚ} {m : NodeMap}
    (h : NumOnly m) : NumOnly (stepAWrite vars sol m) := by
  unfold stepAWrite
  generalize vars.enum = l
  induction l generalizing m with
  | nil => exact h
  | cons p l ih => exact ih (numOnly_setVal h (by simp [isNum]))

/-- The Step-A write-back keeps every key. -/
theorem keyMono_stepAWrite (vars : List String) (sol : List ℚ) (m : NodeMap) :
    KeyMono m (stepAWrite vars sol m) := by
  unfold stepAWrite
  generalize vars.enum = l
  induction l generalizing m with
  | nil => exact keyMono_refl m
  | cons p l ih =>
    exact keyMono_trans (keyMono_setVal m p.2 (Val.num (round6 (sol.getD p.1 0)))) (ih _)

/-- Step A never raises on an all-numeric mapping with numerically
well-behaved relations. -/
theorem stepA_ok {cs : List Constraint} {m : NodeMap}
    (h : NumOnly m) (hcs : ∀ c ∈ cs, NumFunc c) :
    ∃ r, stepA cs m = Except.ok r := by
  rcases buildRowsAux_ok h (variablesOf cs m) cs hcs ([], []) with ⟨acc, hacc⟩
  by_cases hv : (variablesOf cs m).isEmpty
  · exact ⟨Option.none, by simp [stepA, hv]⟩
  · simp only [Bool.not_eq_true] at hv
    by_cases he : acc.1.isEmpty
    · exact ⟨Option.none, by simp [stepA, buildRows, hv, hacc, he]⟩
    · simp only [Bool.not_eq_true] at he
      by_cases hr : rank acc.1 = (variablesOf cs m).length
      · cases hsol : lstsq (variablesOf cs m).length acc.1 acc.2 with
        | none =>
          exact ⟨Option.none, by simp [stepA, buildRows, hv, hacc, he, hr, hsol]⟩
        | some sol =>
          exact ⟨some (stepAWrite (variablesOf cs m) sol m),
            by simp [stepA, buildRows, hv, hacc, he, hr, hsol]⟩
      · exact ⟨Option.none, by simp [stepA, buildRows, hv, hacc, he, hr]⟩

/-! ### Lemmas: Step B never raises when inputs stay registered -/

/-- One output assignment either leaves the mapping alone or writes one
numeric value. -/
theorem applyOutput_cases (m : NodeMap) (o : String) (nv : Val) (hv : isNum nv = true) :
    (applyOutput m o nv).1 = m ∨
    ∃ u, isNum u = true ∧ (applyOutput m o nv).1 = setVal m o u := by
  rcases isNum_iff.mp hv with ⟨n, rfl⟩
  unfold applyOutput
  cases hg : getD m o Val.none with
  | num old =>
    simp only []
    by_cases h1 : |old + (1 / 2 : ℚ) * (n - old) - old| ≤ tolerance
    · rw [if_pos h1]
      exact Or.inl rfl
    · rw [if_neg h1]
      by_cases h2 : Val.num (old + (1 / 2 : ℚ) * (n - old)) = Val.num old
      · rw [if_pos h2]
        exact Or.inl rfl
      · rw [if_neg h2]
        exact Or.inr ⟨Val.num (old + (1 / 2 : ℚ) * (n - old)), rfl, rfl⟩
  | none =>
    simp only []
    by_cases h1 : Val.none = Val.num n
    · rw [if_pos h1]
      exact Or.inl rfl
    · rw [if_neg h1]
      exact Or.inr ⟨Val.num n, rfl, rfl⟩
  | opaq s =>
    simp only []
    by_cases h1 : Val.opaq s = Val.num n
    · rw [if_pos h1]
      exact Or.inl rfl
    · rw [if_neg h1]
      exact Or.inr ⟨Val.num n, rfl, rfl⟩

/-- One output assignment keeps the mapping all-numeric. -/
theorem numOnly_applyOutput {m : NodeMap} (h : NumOnly m) {o : String} {nv : Val}
    (hv : isNum nv = true) : NumOnly (applyOutput m o nv).1 := by
  rcases applyOutput_cases m o nv hv with he | ⟨u, hu, he⟩
  · rw [he]; exact h
  · rw [he]; exact numOnly_setVal h hu

/-- One output assignment keeps every key. -/
theorem keyMono_applyOutput (m : NodeMap) (o : String) (nv : Val)
    (hv : isNum nv = true) : KeyMono m (applyOutput m o nv).1 := by
  rcases applyOutput_cases m o nv hv with he | ⟨u, _, he⟩
  · rw [he]; exact keyMono_refl m
  · rw [he]; exact keyMono_setVal m o u

/-- The output loop of one constraint never fails when the computed values
are numeric and every enumerated index is in range. -/
theorem applyOutputs_ok {vals : List Val} (hn : ∀ v ∈ vals, isNum v = true) :
    ∀ (l : List (Nat × String)) (m : NodeMap) (ch : Bool),
    (∀ p ∈ l, Prod.fst p < vals.length) → NumOnly m →
    ∃ m2 ch2, applyOutputs vals l m ch = (m2, ch2, Option.none) ∧
      NumOnly m2 ∧ KeyMono m m2 := by
  intro l
  induction l with
  | nil => exact fun m ch _ hm => ⟨m, ch, rfl, hm, keyMono_refl m⟩
  | cons jo rest ih =>
    intro m ch hb hm
    have hj : jo.1 < vals.length := hb jo (List.mem_cons_self _ _)
    cases hv : vals.get? jo.1 with
    | none =>
      rw [List.get?_eq_none] at hv
      omega
    | some nv =>
      have hnv : isNum nv = true := hn nv (List.get?_mem hv)
      rcases ih (applyOutput m jo.2 nv).1 (ch || (applyOutput m jo.2 nv).2)
          (fun p hp => hb p (List.mem_cons_of_mem _ hp))
          (numOnly_applyOutput hm hnv) with ⟨m2, ch2, heq, hm2, hk2⟩
      refine ⟨m2, ch2, ?_, hm2, keyMono_trans (keyMono_applyOutput m jo.2 nv hnv) hk2⟩
      unfold applyOutputs
      rw [hv]
      exact heq

/-- Strict input lookup never fails when every input is a key. -/
theorem lookupInputs_ok {m : NodeMap} :
    ∀ (l : List String), (∀ i ∈ l, (List.lookup i m).isSome = true) →
    ∃ vs, lookupInputs m l = Except.ok vs := by
  intro l
  induction l with
  | nil => exact fun _ => ⟨[], rfl⟩
  | cons i rest ih =>
    intro hl
    have hi := hl i (List.mem_cons_self _ _)
    cases hv : List.lookup i m with
    | none => rw [hv] at hi; cases hi
    | some v =>
      rcases ih (fun x hx => hl x (List.mem_cons_of_mem _ hx)) with ⟨vs, hvs⟩
      exact ⟨v :: vs, by simp only [lookupInputs, hv, hvs]⟩

/-- One relaxation step of one constraint never fails under the invariants. -/
theorem applyConstraint_ok {c : Constraint} {m : NodeMap} (ch : Bool)
    (hc : NumFunc c) (hin : ∀ i ∈ c.inputs, (List.lookup i m).isSome = true)
    (hm : NumOnly m) :
    ∃ m2 ch2, applyConstraint c m ch = (m2, ch2, Option.none) ∧
      NumOnly m2 ∧ KeyMono m m2 := by
  rcases lookupInputs_ok c.inputs hin with ⟨ivals, hiv⟩
  rcases applyOutputs_ok (hc ivals).2 c.outputs.enum m ch
      (fun p hp => by rw [(hc ivals).1]; exact enum_fst_lt hp) hm
      with ⟨m2, ch2, heq, hm2, hk2⟩
  exact ⟨m2, ch2, by simp only [applyConstraint, hiv, heq], hm2, hk2⟩

/-- One full relaxation pass never fails under the invariants. -/
theorem relaxPass_ok :
    ∀ (cs : List Constraint) (m : NodeMap) (ch : Bool),
    (∀ c ∈ cs, NumFunc c) →
    (∀ c ∈ cs, ∀ i ∈ c.inputs, (List.lookup i m).isSome = true) →
    NumOnly m →
    ∃ m2 ch2, relaxPass cs m ch = (m2, ch2, Option.none) ∧
      NumOnly m2 ∧ KeyMono m m2 := by
  intro cs
  induction cs with
  | nil => exact fun m ch _ _ hm => ⟨m, ch, rfl, hm, keyMono_refl m⟩
  | cons c rest ih =>
    intro m ch hcs hin hm
    rcases applyConstraint_ok ch (hcs c (List.mem_cons_self _ _))
        (hin c (List.mem_cons_self _ _)) hm with ⟨m1, ch1, heq1, hm1, hk1⟩
    rcases ih m1 ch1 (fun x hx => hcs x (List.mem_cons_of_mem _ hx))
        (fun x hx i hi => hk1 i (hin x (List.mem_cons_of_mem _ hx) i hi)) hm1
        with ⟨m2, ch2, heq2, hm2, hk2⟩
    exact ⟨m2, ch2, by simp only [relaxPass, heq1, heq2], hm2, keyMono_trans hk1 hk2⟩

/-- The relaxation loop never fails under the invariants. -/
theorem relaxLoop_ok {cs : List Constraint} (hcs : ∀ c ∈ cs, NumFunc c) :
    ∀ (fuel : Nat) (seen : List (List (String × Val))) (it : Nat) (m : NodeMap),
    (∀ c ∈ cs, ∀ i ∈ c.inputs, (List.lookup i m).isSome = true) → NumOnly m →
    ∃ m2 st, relaxLoop cs fuel seen it m = (m2, Option.none, st) ∧
      NumOnly m2 ∧ KeyMono m m2 := by
  intro fuel
  induction fuel with
  | zero => exact fun seen it m _ hm => ⟨m, Stop.fuelOut, rfl, hm, keyMono_refl m⟩
  | succ f ih =>
    intro seen it m hin hm
    rw [relaxLoop]
    by_cases hseen : sortNodes m ∈ seen
    · exact ⟨m, Stop.repeated, by simp [hseen], hm, keyMono_refl m⟩
    · by_cases hcap : it + 1 > iterationLimit
      · exact ⟨m, Stop.cap, by simp [hseen, hcap], hm, keyMono_refl m⟩
      · rcases relaxPass_ok cs m false hcs hin hm with ⟨m1, ch1, heq1, hm1, hk1⟩
        cases ch1 with
        | false =>
          exact ⟨m1, Stop.converged, by simp [hseen, hcap, heq1], hm1, hk1⟩
        | true =>
          rcases ih (sortNodes m :: seen) (it + 1) m1
              (fun c hc i hi => hk1 i (hin c hc i hi)) hm1 with ⟨m2, st, heq2, hm2, hk2⟩
          exact ⟨m2, st, by simp [hseen, hcap, heq1, heq2], hm2, keyMono_trans hk1 hk2⟩

/-- The full Step-B path never fails under the invariants. -/
theorem relaxAndRound_ok {cs : List Constraint} {m : NodeMap}
    (hcs : ∀ c ∈ cs, NumFunc c)
    (hin : ∀ c ∈ cs, ∀ i ∈ c.inputs, (List.lookup i m).isSome = true)
    (hm : NumOnly m) :
    ∃ m2, relaxAndRound cs m = (m2, Option.none, false) ∧
      NumOnly m2 ∧ KeyMono m m2 := by
  rcases relaxLoop_ok hcs (iterationLimit + 2) [] 0 m hin hm with ⟨m1, st, heq, hm1, hk1⟩
  exact ⟨roundMap m1, by simp only [relaxAndRound, heq], numOnly_roundMap hm1,
    keyMono_trans hk1 (keyMono_roundMap m1)⟩

/-- Resolving an SCC's constraint indices succeeds when they are in range,
and yields registered constraints. -/
theorem sccConstraints_ok {cons : List Constraint} :
    ∀ (scc : List Nat), (∀ i ∈ scc, i < cons.length) →
    ∃ cs, sccConstraints cons scc = Except.ok cs ∧ ∀ c ∈ cs, c ∈ cons := by
  intro scc
  induction scc with
  | nil => exact fun _ => ⟨[], rfl, fun c hc => absurd hc (List.not_mem_nil c)⟩
  | cons i rest ih =>
    intro hb
    have hi : i < cons.length := hb i (List.mem_cons_self _ _)
    cases hg : cons.get? i with
    | none =>
      rw [List.get?_eq_none] at hg
      omega
    | some c =>
      rcases ih (fun x hx => hb x (List.mem_cons_of_mem _ hx)) with ⟨cs, hcs, hmem⟩
      refine ⟨c :: cs, by simp only [sccConstraints, hg, hcs], ?_⟩
      intro x hx
      rcases List.mem_cons.mp hx with rfl | hx
      · exact List.get?_mem hg
      · exact hmem x hx

/-- One processed SCC never fails under the invariants, and preserves them. -/
theorem processSCC_ok {cons : List Constraint} {m : NodeMap} {scc : List Nat}
    (hvalid : ∀ i ∈ scc, i < cons.length)
    (hfuncs : ∀ c ∈ cons, NumFunc c)
    (hin : InputsRegistered cons m)
    (hm : NumOnly m) :
    ∃ m2 solved, processSCC cons m scc = (m2, Option.none, solved) ∧
      NumOnly m2 ∧ KeyMono m m2 := by
  rcases sccConstraints_ok scc hvalid with ⟨cs, hcs, hmem⟩
  have hcf : ∀ c ∈ cs, NumFunc c := fun c hc => hfuncs c (hmem c hc)
  have hci : ∀ c ∈ cs, ∀ i ∈ c.inputs, (List.lookup i m).isSome = true :=
    fun c hc => hin c (hmem c hc)
  rcases stepA_ok hm hcf with ⟨r, hr⟩
  cases r with
  | some ma =>
    rcases stepA_some_inv hr with ⟨sol, rfl⟩
    exact ⟨stepAWrite (variablesOf cs m) sol m, true,
      by simp only [processSCC, hcs, hr], numOnly_stepAWrite hm,
      keyMono_stepAWrite (variablesOf cs m) sol m⟩
  | none =>
    rcases relaxAndRound_ok hcf hci hm with ⟨m2, heq, hm2, hk2⟩
    exact ⟨m2, false, by simp only [processSCC, hcs, hr, heq], hm2, hk2⟩

/-! ### Lemmas: every SCC index Tarjan emits is a valid constraint index -/

/-- Membership after a sorted-set insertion. -/
theorem mem_insertNat {x n : Nat} : ∀ (l : List Nat), x ∈ insertNat n l → x = n ∨ x ∈ l := by
  intro l
  induction l with
  | nil =>
    intro h
    simp only [insertNat, List.mem_singleton] at h
    exact Or.inl h
  | cons m rest ih =>
    intro h
    unfold insertNat at h
    by_cases h1 : n < m
    · rw [if_pos h1] at h
      rcases List.mem_cons.mp h with rfl | h
      · exact Or.inl rfl
      · exact Or.inr h
    · rw [if_neg h1] at h
      by_cases h2 : n = m
      · rw [if_pos h2] at h
        exact Or.inr h
      · rw [if_neg h2] at h
        rcases List.mem_cons.mp h with rfl | h
        · exact Or.inr (List.mem_cons_self _ _)
        · rcases ih h with rfl | h3
          · exact Or.inl rfl
          · exact Or.inr (List.mem_cons_of_mem _ h3)

/-- A successful lookup comes from a stored pair. -/
theorem lookup_pair_mem {α β : Type} [BEq α] {l : List (α × β)} {k : α} {v : β}
    (h : List.lookup k l = some v) : ∃ p ∈ l, Prod.snd p = v := by
  induction l with
  | nil => cases h
  | cons a rest ih =>
    rcases a with ⟨k0, v0⟩
    rw [List.lookup_cons] at h
    split at h
    · injection h with h
      exact ⟨(k0, v0), List.mem_cons_self _ _, h⟩
    · rcases ih h with ⟨p, hp, hv⟩
      exact ⟨p, List.mem_cons_of_mem _ hp, hv⟩

/-- Adding an in-range edge keeps the dependency map in range. -/
theorem addEdgeS_bound {N : Nat} {k : String} {n : Nat}
    (hn : n < N) : ∀ (g : List (String × List Nat)), DepBound g N →
    DepBound (addEdgeS k n g) N := by
  intro g
  induction g with
  | nil =>
    intro _ p hp
    simp only [addEdgeS, List.mem_singleton] at hp
    subst hp
    intro x hx
    simp only [List.mem_singleton] at hx
    omega
  | cons a rest ih =>
    intro hg p hp
    rcases a with ⟨k0, s0⟩
    unfold addEdgeS at hp
    by_cases h0 : k0 = k
    · rw [if_pos h0] at hp
      rcases List.mem_cons.mp hp with rfl | hp
      · intro x hx
        rcases mem_insertNat s0 hx with rfl | hx
        · exact hn
        · exact hg (k0, s0) (List.mem_cons_self _ _) x hx
      · exact hg p (List.mem_cons_of_mem _ hp)
    · rw [if_neg h0] at hp
      rcases List.mem_cons.mp hp with rfl | hp
      · exact hg (k0, s0) (List.mem_cons_self _ _)
      · exact ih (fun q hq => hg q (List.mem_cons_of_mem _ hq)) p hp

/-- Adding an in-range edge keeps the relation graph in range. -/
theorem addEdgeN_bound {N k n : Nat} (hk : k < N) (hn : n < N) :
    ∀ (g : List (Nat × List Nat)), GraphBound g N → GraphBound (addEdgeN k n g) N := by
  intro g
  induction g with
  | nil =>
    intro _ p hp
    simp only [addEdgeN, List.mem_singleton] at hp
    subst hp
    refine ⟨hk, ?_⟩
    intro x hx
    simp only [List.mem_singleton] at hx
    omega
  | cons a rest ih =>
    intro hg p hp
    rcases a with ⟨k0, s0⟩
    unfold addEdgeN at hp
    by_cases h0 : k0 = k
    · rw [if_pos h0] at hp
      rcases List.mem_cons.mp hp with rfl | hp
      · refine ⟨h0 ▸ (hg (k0, s0) (List.mem_cons_self _ _)).1, ?_⟩
        intro x hx
        rcases mem_insertNat s0 hx with rfl | hx
        · exact hn
        · exact (hg (k0, s0) (List.mem_cons_self _ _)).2 x hx
      · exact hg p (List.mem_cons_of_mem _ hp)
    · rw [if_neg h0] at hp
      rcases List.mem_cons.mp hp with rfl | hp
      · exact hg (k0, s0) (List.mem_cons_self _ _)
      · exact ih (fun q hq => hg q (List.mem_cons_of_mem _ hq)) p hp

/-- The dependency map only stores indices of registered constraints. -/
theorem depGraph_bound (cons : List Constraint) :
    DepBound (depGraph cons) cons.length := by
  unfold depGraph
  have inner : ∀ (idx : Nat), idx < cons.length →
      ∀ (l : List String) (g : List (String × List Nat)), DepBound g cons.length →
      DepBound (l.foldl (fun g inp => addEdgeS inp idx g) g) cons.length := by
    intro idx hidx l
    induction l with
    | nil => exact fun g hg => hg
    | cons i rest ih => exact fun g hg => ih _ (addEdgeS_bound hidx g hg)
  have main : ∀ (l : List (Nat × Constraint)) (g : List (String × List Nat)),
      (∀ p ∈ l, Prod.fst p < cons.length) → DepBound g cons.length →
      DepBound (l.foldl (fun g p => p.2.inputs.foldl
        (fun g inp => addEdgeS inp p.1 g) g) g) cons.length := by
    intro l
    induction l with
    | nil => exact fun g _ hg => hg
    | cons p rest ih =>
      intro g hl hg
      exact ih _ (fun q hq => hl q (List.mem_cons_of_mem _ hq))
        (inner p.1 (hl p (List.mem_cons_self _ _)) p.2.inputs g hg)
  exact main cons.enum [] (fun p hp => enum_fst_lt hp)
    (fun p hp => absurd hp (List.not_mem_nil p))

/-- Dependents read from the dependency map are in range. -/
theorem depGet_bound {dg : List (String × List Nat)} {N : Nat}
    (h : DepBound dg N) (k : String) : ∀ x ∈ depGet dg k, x < N := by
  unfold depGet
  cases hl : List.lookup k dg with
  | none => exact fun x hx => absurd hx (List.not_mem_nil x)
  | some v =>
    intro x hx
    rcases lookup_pair_mem hl with ⟨p, hp, hv⟩
    exact h p hp x (hv ▸ hx)

/-- The relation graph only mentions indices of registered constraints. -/
theorem constraintGraph_bound (cons : List Constraint) :
    GraphBound (constraintGraph cons) cons.length := by
  unfold constraintGraph
  have hdep := depGraph_bound cons
  have inner : ∀ (idx : Nat), idx < cons.length →
      ∀ (deps : List Nat), (∀ d ∈ deps, d < cons.length) →
      ∀ (g : List (Nat × List Nat)), GraphBound g cons.length →
      GraphBound (deps.foldl (fun g dep => addEdgeN idx dep g) g) cons.length := by
    intro idx hidx deps
    induction deps with
    | nil => exact fun _ g hg => hg
    | cons d rest ih =>
      intro hd g hg
      exact ih (fun x hx => hd x (List.mem_cons_of_mem _ hx)) _
        (addEdgeN_bound hidx (hd d (List.mem_cons_self _ _)) g hg)
  have mid : ∀ (idx : Nat), idx < cons.length →
      ∀ (outs : List String) (g : List (Nat × List Nat)), GraphBound g cons.length →
      GraphBound (outs.foldl (fun g out => (depGet (depGraph cons) out).foldl
        (fun g dep => addEdgeN idx dep g) g) g) cons.length := by
    intro idx hidx outs
    induction outs with
    | nil => exact fun g hg => hg
    | cons o orest oih =>
      intro g hg
      exact oih _ (inner idx hidx (depGet (depGraph cons) o)
        (depGet_bound hdep o) g hg)
  have main : ∀ (l : List (Nat × Constraint)) (g : List (Nat × List Nat)),
      (∀ p ∈ l, Prod.fst p < cons.length) → GraphBound g cons.length →
      GraphBound (l.foldl (fun g p => p.2.outputs.foldl
        (fun g out => (depGet (depGraph cons) out).foldl
          (fun g dep => addEdgeN p.1 dep g) g) g) g) cons.length := by
    intro l
    induction l with
    | nil => exact fun g _ hg => hg
    | cons p rest ih =>
      intro g hl hg
      exact ih _ (fun q hq => hl q (List.mem_cons_of_mem _ hq))
        (mid p.1 (hl p (List.mem_cons_self _ _)) p.2.outputs g hg)
  exact main cons.enum [] (fun p hp => enum_fst_lt hp)
    (fun p hp => absurd hp (List.not_mem_nil p))

/-- The SCC pop loop only moves stack entries around. -/
theorem popScc_mem (node : Nat) :
    ∀ (stack : List Nat) (onS : List (Nat × Bool)) (acc : List Nat),
    (∀ x ∈ (popScc node stack onS acc).1, x ∈ stack) ∧
    (∀ x ∈ (popScc node stack onS acc).2.2, x ∈ stack ∨ x ∈ acc) := by
  intro stack
  induction stack with
  | nil =>
    intro onS acc
    refine ⟨fun x hx => absurd hx (List.not_mem_nil x), fun x hx => ?_⟩
    simp only [popScc, List.mem_reverse] at hx
    exact Or.inr hx
  | cons w rest ih =>
    intro onS acc
    by_cases hw : w = node
    · simp only [popScc, if_pos hw]
      refine ⟨fun x hx => List.mem_cons_of_mem _ hx, fun x hx => ?_⟩
      rw [List.mem_reverse] at hx
      rcases List.mem_cons.mp hx with rfl | hx
      · exact Or.inl (List.mem_cons_self _ _)
      · exact Or.inr hx
    · simp only [popScc, if_neg hw]
      rcases ih (assocSetB onS w false) (w :: acc) with ⟨h1, h2⟩
      refine ⟨fun x hx => List.mem_cons_of_mem _ (h1 x hx), fun x hx => ?_⟩
      rcases h2 x hx with hx | hx
      · exact Or.inl (List.mem_cons_of_mem _ hx)
      · rcases List.mem_cons.mp hx with rfl | hx
        · exact Or.inl (List.mem_cons_self _ _)
        · exact Or.inr hx

/-- `strongconnect` keeps every stack entry and emitted SCC member below the
graph bound, provided it is called on an in-range vertex. -/
theorem strongconnect_bound {g : List (Nat × List Nat)} {N : Nat}
    (hg : GraphBound g N) :
    ∀ (fuel : Nat) (node : Nat) (st : TarjanSt), node < N → SccBound st N →
    SccBound (strongconnect g fuel node st) N := by
  intro fuel
  induction fuel with
  | zero => exact fun node st _ hst => hst
  | succ f ih =>
    intro node st hnode hst
    rw [strongconnect]
    have hnb : ∀ nb ∈ nbrs g node, nb < N := by
      intro nb hmem
      unfold nbrs at hmem
      cases hl : List.lookup node g with
      | none => rw [hl] at hmem; cases hmem
      | some s =>
        rw [hl] at hmem
        rcases lookup_pair_mem hl with ⟨p, hp, hv⟩
        exact (hg p hp).2 nb (hv ▸ hmem)
    have hst1 : SccBound
        { st with
          indices := assocSet st.indices node st.index
          lowlinks := assocSet st.lowlinks node st.index
          index := st.index + 1
          stack := st.stack ++ [node]
          onStack := assocSetB st.onStack node true } N := by
      refine ⟨?_, hst.2⟩
      intro x hx
      rcases List.mem_append.mp hx with hx | hx
      · exact hst.1 x hx
      · simp only [List.mem_singleton] at hx
        omega
    have hfold : ∀ (nbs : List Nat) (st2 : TarjanSt), (∀ nb ∈ nbs, nb < N) →
        SccBound st2 N →
        SccBound (nbs.foldl (visitNbr (strongconnect g f) node) st2) N := by
      intro nbs
      induction nbs with
      | nil => exact fun st2 _ h2 => h2
      | cons nb nrest nih =>
        intro st2 hmem h2
        refine nih _ (fun x hx => hmem x (List.mem_cons_of_mem _ hx)) ?_
        unfold visitNbr
        by_cases hidx : (List.lookup nb st2.indices).isSome
        · by_cases hos : assocGetB st2.onStack nb
          · simp only [hidx, if_true, hos]
            exact h2
          · simp only [hidx, if_true, hos, Bool.false_eq_true, if_false]
            exact h2
        · simp only [hidx, Bool.false_eq_true, if_false]
          exact ih nb st2 (hmem nb (List.mem_cons_self _ _)) h2
    have hmid := hfold (nbrs g node) _ hnb hst1
    set stMid := (nbrs g node).foldl (visitNbr (strongconnect g f) node)
      { st with
        indices := assocSet st.indices node st.index
        lowlinks := assocSet st.lowlinks node st.index
        index := st.index + 1
        stack := st.stack ++ [node]
        onStack := assocSetB st.onStack node true } with hdef
    by_cases hc : assocGet stMid.lowlinks node = assocGet stMid.indices node
    · simp only [hc, if_true]
      rcases popScc_mem node stMid.stack.reverse stMid.onStack [] with ⟨h1, h2⟩
      constructor
      · intro x hx
        simp only [List.mem_reverse] at hx
        have := h1 x hx
        rw [List.mem_reverse] at this
        exact hmid.1 x this
      · intro scc hscc
        rcases List.mem_append.mp hscc with hscc | hscc
        · exact hmid.2 scc hscc
        · simp only [List.mem_singleton] at hscc
          subst hscc
          intro x hx
          rcases h2 x hx with hx | hx
          · rw [List.mem_reverse] at hx
            exact hmid.1 x hx
          · cases hx
    · simp only [hc, if_false]
      exact hmid

/-- Every SCC Tarjan emits consists of in-range vertices. -/
theorem tarjanScc_bound {g : List (Nat × List Nat)} {N : Nat} (hg : GraphBound g N) :
    ∀ scc ∈ tarjanScc g, ∀ x ∈ scc, x < N := by
  have main : ∀ (l : List (Nat × List Nat)) (st : TarjanSt),
      (∀ p ∈ l, Prod.fst p < N) → SccBound st N →
      SccBound (l.foldl (fun st p =>
        if (List.lookup p.1 st.indices).isSome then st
        else strongconnect g (g.length + 1) p.1 st) st) N := by
    intro l
    induction l with
    | nil => exact fun st _ hst => hst
    | cons p rest ih =>
      intro st hl hst
      refine ih _ (fun q hq => hl q (List.mem_cons_of_mem _ hq)) ?_
      by_cases hidx : (List.lookup p.1 st.indices).isSome
      · simp only [hidx, if_true]
        exact hst
      · simp only [hidx, Bool.false_eq_true, if_false]
        exact strongconnect_bound hg (g.length + 1) p.1 st
          (hl p (List.mem_cons_self _ _)) hst
  intro scc hscc
  exact (main g ⟨0, [], [], [], [], []⟩ (fun p hp => (hg p hp).1)
    ⟨fun x hx => absurd hx (List.not_mem_nil x),
     fun s hs => absurd hs (List.not_mem_nil s)⟩).2 scc hscc

/-- Every index in every SCC `propagate` iterates is a valid constraint
index. -/
theorem sccsOf_valid (cons : List Constraint) :
    ∀ scc ∈ sccsOf cons, ∀ i ∈ scc, i < cons.length := by
  intro scc hscc
  rw [sccsOf, List.mem_reverse] at hscc
  exact tarjanScc_bound (constraintGraph_bound cons) scc hscc

/-- The SCC fold never fails under the invariants. -/
theorem propagateAux_ok {cons : List Constraint}
    (hfuncs : ∀ c ∈ cons, NumFunc c) :
    ∀ (sccs : List (List Nat)) (m : NodeMap) (allA : Bool),
    (∀ scc ∈ sccs, ∀ i ∈ scc, i < cons.length) →
    InputsRegistered cons m → NumOnly m →
    (propagateAux cons sccs m allA).2.1 = Option.none := by
  intro sccs
  induction sccs with
  | nil => intro m allA _ _ _; rfl
  | cons scc rest ih =>
    intro m allA hv hin hm
    rcases processSCC_ok (hv scc (List.mem_cons_self _ _)) hfuncs hin hm
        with ⟨m2, solved, heq, hm2, hk2⟩
    rw [propagateAux, heq]
    exact ih m2 (allA && solved)
      (fun s hs => hv s (List.mem_cons_of_mem _ hs))
      (fun c hc i hi => hk2 i (hin c hc i hi)) hm2

/-- **C2** (amended): `propagate` never raises for a well-formed relation
graph, provided additionally that every registered node's value is numeric
and every relation function returns exactly one numeric value per declared
output on any input. (The original claim also admits opaque and unset node
values; those can reach Step A's `float()` conversion and raise — see the
counterexample.) Under these hypotheses the call returns normally, every
SCC having been left in an exact solved state or a best-effort relaxed
state. -/
theorem C2_never_raises_amended (L : Lattice)
    (h1 : InputsRegistered L.constraints L.nodes)
    (h2 : NumOnly L.nodes)
    (h3 : ∀ c ∈ L.constraints, NumFunc c) :
    (propagate L).2 = Option.none := by
  unfold propagate propagateFull
  exact propagateAux_ok h3 (sccsOf L.constraints) L.nodes true
    (sccsOf_valid L.constraints) h1 h2

/-- Witness for the amended C2: the cycle `a = b + 1`, `b = a - 1` is
well-formed with numeric nodes and numeric single-output relations, and its
propagation raises nothing. -/
theorem C2_amended_witness : (propagate abL).2 = Option.none :=
  C2_never_raises_amended abL (by unfold InputsRegistered; decide)
    (by unfold NumOnly; decide) (by
    intro c hc
    rcases List.mem_cons.mp hc with rfl | hc
    · intro args
      refine ⟨rfl, ?_⟩
      intro v hv
      simp only [abC0, List.mem_singleton] at hv
      subst hv
      rfl
    · rcases List.mem_cons.mp hc with rfl | hc
      · intro args
        refine ⟨rfl, ?_⟩
        intro v hv
        simp only [abC1, List.mem_singleton] at hv
        subst hv
        rfl
      · exact absurd hc (List.not_mem_nil c))

end CL
